import Mathlib

/-!
# Point-Cloud Semantic Annotator — verification of the annotation core

A shallow embedding, in Lean 4, of the interactive annotation engine of the
Point-Cloud-Semantic-Annotator repository: the brush-footprint computation
(`controllers/annotation.py:compute_brush_idx`), the slider clamps
(`change_brush`, `change_point`), the layered color compositing
(`update_annotation_visibility`), the stroke/undo/redo history machinery
(`controllers/interaction.py:event_filter`, `on_undo`, `on_redo`), the
original-color substitution on load (`controllers/io.py:load_cloud`), the
shared-camera fitting (`rendering/camera.py:fit_shared_camera_once`), and the
cursor-anchored zoom (`rendering/camera.py:zoom_at_cursor_for`).

Python floats are modelled as exact rationals (`ℚ`) or reals (`ℝ` for the
camera geometry); numpy `uint8` color channels are modelled as naturals with
explicit wrap-around where the code casts.  VTK renderer calls
(`Pick`, `WorldToDisplay`, `DisplayToWorld`) are external library geometry:
they enter the model as explicit data (per-point screen positions, pick rays)
rather than as code.
-/

namespace PCSA

/-! ## Brush model — `controllers/annotation.py:compute_brush_idx` -/

/-- Python `int()` applied to a float/rational: truncation toward zero. -/
def pyInt (q : ℚ) : ℤ := if 0 ≤ q then ⌊q⌋ else -⌊-q⌋

/-- `change_brush` (annotation.py:132-134): `v = int(max(1, min(val, 200)))`;
`app.brush_size = float(v)`.  Returns the stored brush size. -/
def change_brush (val : ℚ) : ℤ := pyInt (max 1 (min val 200))

/-- `change_point` (annotation.py:142-145): `v = max(1, min(int(val), 20))`;
`app.point_size = v`.  Returns the stored point size. -/
def change_point (val : ℚ) : ℤ := max 1 (min (pyInt val) 20)

/-- annotation.py:58 — `r_px = float(max(1, app.brush_size))`. -/
def r_px (brush_size : ℚ) : ℚ := max 1 brush_size

/-- annotation.py:59 — `s_px = 0.5 * float(max(1, app.point_size))`. -/
def s_px (point_size : ℚ) : ℚ := (1/2) * max 1 point_size

/-- Squared Euclidean distance of 3D points (used by the kd-tree preselect). -/
def wdist2 (a b : ℚ × ℚ × ℚ) : ℚ :=
  (a.1 - b.1)^2 + (a.2.1 - b.2.1)^2 + (a.2.2 - b.2.2)^2

/-- Squared Euclidean distance of 2D (display) points. -/
def sdist2 (a b : ℚ × ℚ) : ℚ := (a.1 - b.1)^2 + (a.2 - b.2)^2

/-- The fixed geometric context of one `compute_brush_idx` call: the cursor in
display coordinates (`cx, cy` after the `H - y` flip), the per-pixel world size
`px_world`, the coverage inflation factor, the picked brush-center world point
`wc`, the cloud's world positions, and each point's projection to display
coordinates (the result of the renderer's `WorldToDisplay`). -/
structure BrushEnv where
  cursor : ℚ × ℚ
  pxWorld : ℚ
  inflate : ℚ
  center : ℚ × ℚ × ℚ
  worldPos : List (ℚ × ℚ × ℚ)
  screenPos : List (ℚ × ℚ)

/-- annotation.py:62 — `world_r = max(1e-9, (r_px + s_px) * px_world * inflate)`. -/
def worldR (env : BrushEnv) (r s : ℚ) : ℚ :=
  max (1 / 10^9) ((r + s) * env.pxWorld * env.inflate)

/-- annotation.py:63 — `cand = app.kdtree.query_ball_point(wc, world_r)`:
indices of cloud points within `world_r` of the picked center. -/
def candidates (env : BrushEnv) (r s : ℚ) : List ℕ :=
  (List.range env.worldPos.length).filter fun i =>
    decide (wdist2 (env.worldPos.getD i (0,0,0)) env.center ≤ (worldR env r s)^2)

/-- Squared display distance of point `i` from the cursor. -/
def screenD2 (env : BrushEnv) (i : ℕ) : ℚ :=
  sdist2 (env.screenPos.getD i (0,0)) env.cursor

/-- annotation.py:58-94 — the exact-coverage brush test: with `r_in = r_px - s_px`,
keep a candidate when its squared display distance is `≤ r_in²` if `r_in > 0.5`,
else (tiny brush) when it is `≤ (r_px + s_px)²`. -/
def compute_brush_idx (env : BrushEnv) (brush point : ℚ) : List ℕ :=
  if r_px brush - s_px point > 1/2 then
    (candidates env (r_px brush) (s_px point)).filter fun i =>
      decide (screenD2 env i ≤ (r_px brush - s_px point)^2)
  else
    (candidates env (r_px brush) (s_px point)).filter fun i =>
      decide (screenD2 env i ≤ (r_px brush + s_px point)^2)

/-- The membership test exactly as the claim words it: sprite-fits-inside
(`d ≤ r_px - s_px`) in general, circle-circle intersection (`d ≤ r_px + s_px`)
when `r_px ≤ s_px`; stated on squared distances (all radii nonnegative). -/
def claimBrushTest (r s d2 : ℚ) : Prop :=
  if r ≤ s then d2 ≤ (r + s)^2 else d2 ≤ (r - s)^2

/-- The membership test the code actually uses: intersection whenever
`r_px - s_px ≤ 0.5` (not merely when `r_px ≤ s_px`). -/
def codeBrushTest (r s d2 : ℚ) : Prop :=
  if r - s > 1/2 then d2 ≤ (r - s)^2 else d2 ≤ (r + s)^2

/-- A one-point scene used to separate the two membership tests: the cursor
picks the origin, one world unit spans one pixel, and the single cloud point
sits one pixel from the cursor on screen. -/
def envB : BrushEnv :=
  { cursor := (0, 0), pxWorld := 1, inflate := 23/20, center := (0, 0, 0)
    worldPos := [(1, 0, 0)], screenPos := [(1, 0)] }

/-- C1 — counterexample.  With brush size 1 and point size 1 we have
`r_px = 1 > 0.5 = s_px`, so the claim prescribes the sprite-inside test
`d ≤ r_px - s_px = 0.5`; the single cloud point sits at display distance 1
and the claimed test rejects it, yet `compute_brush_idx` keeps it, because the
code switches to the intersection test whenever `r_px - s_px ≤ 0.5`, not only
when `r_px ≤ s_px`. -/
theorem brush_test_claim_counterexample :
    s_px 1 < r_px 1 ∧
    ¬ claimBrushTest (r_px 1) (s_px 1) (screenD2 envB 0) ∧
    0 ∈ compute_brush_idx envB 1 1 := by
  refine ⟨by norm_num [r_px, s_px], ?_, ?_⟩
  · norm_num [claimBrushTest, r_px, s_px, screenD2, sdist2, envB]
  · norm_num [compute_brush_idx, candidates, worldR, wdist2, r_px, s_px,
      screenD2, sdist2, envB, List.range_succ]

/-- C1 (amended) — a candidate point is kept by `compute_brush_idx` exactly
when it passes the code's membership test: sprite-inside
(`d ≤ r_px - s_px`) when `r_px - s_px > 0.5`, circle-circle intersection
(`d ≤ r_px + s_px`) whenever `r_px - s_px ≤ 0.5` (which covers, in particular,
every case with `r_px ≤ s_px`). -/
theorem compute_brush_idx_mem_iff (env : BrushEnv) (brush point : ℚ) (i : ℕ)
    (hi : i ∈ candidates env (r_px brush) (s_px point)) :
    i ∈ compute_brush_idx env brush point ↔
      codeBrushTest (r_px brush) (s_px point) (screenD2 env i) := by
  unfold compute_brush_idx codeBrushTest
  by_cases h : r_px brush - s_px point > 1/2
  · rw [if_pos h, if_pos h, List.mem_filter]
    simp [hi]
  · rw [if_neg h, if_neg h, List.mem_filter]
    simp [hi]

/-- Witness for `compute_brush_idx_mem_iff` at a concrete scene. -/
theorem compute_brush_idx_mem_iff_witness :
    0 ∈ compute_brush_idx envB 1 1 ↔
      codeBrushTest (r_px 1) (s_px 1) (screenD2 envB 0) :=
  compute_brush_idx_mem_iff envB 1 1 0
    (by norm_num [candidates, worldR, wdist2, r_px, s_px, envB, List.range_succ])

/-- A scene refuting brush monotonicity across the test-branch boundary: the
single point lies 5 px from the cursor; with sprite radius 5 (point size 10) a
brush of radius 5 paints it via the intersection fallback, while the larger
brush of radius 6 uses the strict sprite-inside test and misses it. -/
def envM : BrushEnv :=
  { cursor := (0, 0), pxWorld := 1, inflate := 23/20, center := (0, 0, 0)
    worldPos := [(5, 0, 0)], screenPos := [(5, 0)] }

/-- C5 — counterexample.  Fixed cursor, camera and sprite radius
(point size 10), brush radii `5 ≤ 6`: the point is painted at radius 5 but not
at radius 6, so the touched set is not monotone in the brush radius. -/
theorem brush_monotonicity_counterexample :
    (5:ℚ) ≤ 6 ∧
    0 ∈ compute_brush_idx envM 5 10 ∧
    0 ∉ compute_brush_idx envM 6 10 := by
  refine ⟨by norm_num, ?_, ?_⟩
  · norm_num [compute_brush_idx, candidates, worldR, wdist2, r_px, s_px,
      screenD2, sdist2, envM, List.range_succ]
  · norm_num [compute_brush_idx, candidates, worldR, wdist2, r_px, s_px,
      screenD2, sdist2, envM, List.range_succ]

lemma worldR_mono (env : BrushEnv) (henv : 0 ≤ env.pxWorld * env.inflate)
    {r1 r2 s : ℚ} (h : r1 ≤ r2) : worldR env r1 s ≤ worldR env r2 s := by
  unfold worldR
  refine max_le_max le_rfl ?_
  rw [mul_assoc, mul_assoc]
  exact mul_le_mul_of_nonneg_right (by linarith) henv

lemma worldR_pos (env : BrushEnv) (r s : ℚ) : 0 < worldR env r s :=
  lt_of_lt_of_le (by norm_num) (le_max_left _ _)

lemma candidates_mono (env : BrushEnv) {r1 r2 s : ℚ}
    (henv : 0 ≤ env.pxWorld * env.inflate) (h : r1 ≤ r2) :
    ∀ i ∈ candidates env r1 s, i ∈ candidates env r2 s := by
  intro i hi
  unfold candidates at hi ⊢
  rw [List.mem_filter] at hi ⊢
  refine ⟨hi.1, ?_⟩
  rw [decide_eq_true_eq] at *
  have hw := worldR_mono env henv (s := s) h
  have hp := (worldR_pos env r1 s).le
  calc wdist2 (env.worldPos.getD i (0,0,0)) env.center
      ≤ (worldR env r1 s)^2 := hi.2
    _ ≤ (worldR env r2 s)^2 := by nlinarith

/-- C5 (amended) — brush monotonicity holds whenever the two radii drive the
same membership test: if either both use the intersection fallback
(`r_px r2 - s_px ≤ 1/2`) or both use the strict sprite-inside test
(`1/2 < r_px r1 - s_px`), then every point painted at radius `r1 ≤ r2` is also
painted at radius `r2` (for a nonnegative pixel-world scale and inflation).
Across the branch boundary monotonicity fails
(`brush_monotonicity_counterexample`). -/
theorem compute_brush_idx_monotone_same_branch (env : BrushEnv) (point r1 r2 : ℚ)
    (henv : 0 ≤ env.pxWorld * env.inflate) (h12 : r1 ≤ r2)
    (hbr : r_px r2 - s_px point ≤ 1/2 ∨ 1/2 < r_px r1 - s_px point) :
    ∀ i ∈ compute_brush_idx env r1 point, i ∈ compute_brush_idx env r2 point := by
  intro i hi
  have hr12 : r_px r1 ≤ r_px r2 := max_le_max le_rfl h12
  have hs : (1:ℚ)/2 ≤ s_px point := by
    have := le_max_left (1:ℚ) point
    unfold s_px; nlinarith [le_max_left (1:ℚ) point]
  have hr1 : (1:ℚ) ≤ r_px r1 := le_max_left _ _
  unfold compute_brush_idx at hi ⊢
  rcases hbr with hb | hb
  · have h1 : ¬ (r_px r1 - s_px point > 1/2) := by linarith
    have h2 : ¬ (r_px r2 - s_px point > 1/2) := by linarith
    rw [if_neg h1] at hi
    rw [if_neg h2]
    rw [List.mem_filter] at hi ⊢
    refine ⟨candidates_mono env henv hr12 i hi.1, ?_⟩
    rw [decide_eq_true_eq] at *
    nlinarith [hi.2]
  · have h1 : r_px r1 - s_px point > 1/2 := hb
    have h2 : r_px r2 - s_px point > 1/2 := by linarith
    rw [if_pos h1] at hi
    rw [if_pos h2]
    rw [List.mem_filter] at hi ⊢
    refine ⟨candidates_mono env henv hr12 i hi.1, ?_⟩
    rw [decide_eq_true_eq] at *
    nlinarith [hi.2]

/-- Witness for `compute_brush_idx_monotone_same_branch`: radii 6 ≤ 7, sprite
radius 5, both in the strict branch; the point painted at radius 6 (distance
1 px) is also painted at radius 7. -/
theorem compute_brush_idx_monotone_same_branch_witness :
    0 ∈ compute_brush_idx envB 6 10 ∧ 0 ∈ compute_brush_idx envB 7 10 := by
  have h0 : 0 ∈ compute_brush_idx envB 6 10 := by
    norm_num [compute_brush_idx, candidates, worldR, wdist2, r_px, s_px,
      screenD2, sdist2, envB, List.range_succ]
  exact ⟨h0, compute_brush_idx_monotone_same_branch envB 10 6 7
    (by norm_num [envB]) (by norm_num)
    (Or.inr (by norm_num [r_px, s_px])) 0 h0⟩

/-- C10 — the brush-size setter clamps its input to the integer range
`[1, 200]`, the point-size setter clamps to `[1, 20]`, and consequently the
brush radius `r_px` and sprite radius `s_px` computed from the stored values
are at least 1 px and 0.5 px respectively. -/
theorem change_brush_change_point_clamped (v w : ℚ) :
    1 ≤ change_brush v ∧ change_brush v ≤ 200 ∧
    1 ≤ change_point w ∧ change_point w ≤ 20 ∧
    1 ≤ r_px ((change_brush v : ℤ) : ℚ) ∧
    1/2 ≤ s_px ((change_point w : ℤ) : ℚ) := by
  have hq : (0:ℚ) ≤ max 1 (min v 200) := le_trans zero_le_one (le_max_left _ _)
  have hcb : change_brush v = ⌊max 1 (min v 200)⌋ := by
    unfold change_brush pyInt; rw [if_pos hq]
  refine ⟨?_, ?_, ?_, ?_, le_max_left _ _, ?_⟩
  · rw [hcb]
    exact Int.le_floor.mpr (by push_cast; exact le_max_left _ _)
  · rw [hcb]
    calc ⌊max 1 (min v 200)⌋ ≤ ⌊(200:ℚ)⌋ :=
          Int.floor_le_floor (max_le (by norm_num) (min_le_right _ _))
      _ = 200 := by norm_num
  · exact le_max_left _ _
  · exact max_le (by norm_num) (min_le_right _ _)
  · unfold s_px
    nlinarith [le_max_left (1:ℚ) ((change_point w : ℤ) : ℚ)]

/-! ## Color layer model — `annotation.py:update_annotation_visibility` -/

/-- A uint8 RGB color. -/
abbrev RGB := ℕ × ℕ × ℕ

/-- All three channels fit a uint8. -/
def chanLt256 (c : RGB) : Prop := c.1 < 256 ∧ c.2.1 < 256 ∧ c.2.2 < 256

/-- numpy `round`: round half to even. -/
def npRound (q : ℚ) : ℤ :=
  if q - ⌊q⌋ < 1/2 then ⌊q⌋
  else if 1/2 < q - ⌊q⌋ then ⌊q⌋ + 1
  else if Even ⌊q⌋ then ⌊q⌋ else ⌊q⌋ + 1

/-- `astype(np.uint8)` on an integer: wrap modulo 256. -/
def toU8 (z : ℤ) : ℕ := (z % 256).toNat

/-- One channel of annotation.py:489-491 —
`(a * fg + (1.0 - a) * bg).round().astype(np.uint8)`. -/
def blendChan (a : ℚ) (fg bg : ℕ) : ℕ := toU8 (npRound (a * fg + (1 - a) * bg))

/-- Alpha-blend of two uint8 colors. -/
def blendRGB (a : ℚ) (fg bg : RGB) : RGB :=
  (blendChan a fg.1 bg.1, blendChan a fg.2.1 bg.2.1, blendChan a fg.2.2 bg.2.2)

/-- annotation.py:463-465 — the base layer: `enhanced_colors` when present and
of the same length as `original_colors`, else `original_colors`. -/
def current_base (original : List RGB) (enhanced : Option (List RGB)) : List RGB :=
  match enhanced with
  | none => original
  | some e => if e.length = original.length then e else original

/-- The per-point compositing rule of annotation.py:483-492: unedited points
show the base; edited points show the edited color when `a ≥ 0.999`, the base
when `a ≤ 0.001`, and the rounded alpha-blend otherwise. -/
def compositePoint (a : ℚ) (c o b : RGB) : RGB :=
  if c ≠ o then
    (if a ≥ 999/1000 then c else if a ≤ 1/1000 then b else blendRGB a c b)
  else b

/-- annotation.py:456-494 — the composited display buffer: the base when
annotations are hidden or no point is edited, else the pointwise composite. -/
def update_annotation_visibility (visible : Bool) (a : ℚ)
    (colors original : List RGB) (enhanced : Option (List RGB)) : List RGB :=
  let base := current_base original enhanced
  if visible = false then base
  else if (colors.zip original).all (fun p => decide (p.1 = p.2)) then base
  else (List.range base.length).map fun i =>
    compositePoint a (colors.getD i (0,0,0)) (original.getD i (0,0,0))
      (base.getD i (0,0,0))

lemma current_base_length (original : List RGB) (enhanced : Option (List RGB)) :
    (current_base original enhanced).length = original.length := by
  cases enhanced with
  | none => rfl
  | some e => by_cases h : e.length = original.length <;> simp [current_base, h]

lemma npRound_eq_of_close (q : ℚ) (m : ℤ) (h : |q - m| < 1/2) : npRound q = m := by
  rw [abs_sub_lt_iff] at h
  obtain ⟨h1, h2⟩ := h
  unfold npRound
  rcases le_or_lt (m : ℚ) q with hq | hq
  · have hf : ⌊q⌋ = m := by
      rw [Int.floor_eq_iff]
      constructor
      · exact_mod_cast hq
      · linarith
    rw [hf, if_pos (by linarith)]
  · have hf : ⌊q⌋ = m - 1 := by
      rw [Int.floor_eq_iff]
      constructor
      · push_cast; linarith
      · push_cast; linarith
    rw [hf]
    rw [if_neg (by push_cast; linarith), if_pos (by push_cast; linarith)]
    ring

lemma toU8_coe (n : ℕ) (h : n < 256) : toU8 n = n := by
  unfold toU8
  omega

lemma blendChan_near_one (a : ℚ) (fg bg : ℕ) (hfg : fg < 256) (hbg : bg < 256)
    (h9 : 999/1000 ≤ a) (h1 : a ≤ 1) : blendChan a fg bg = fg := by
  unfold blendChan
  have hq : |a * fg + (1 - a) * bg - (fg : ℤ)| < 1/2 := by
    have hb : (bg : ℚ) ≤ 255 := by exact_mod_cast Nat.lt_succ_iff.mp hbg
    have hf : (fg : ℚ) ≤ 255 := by exact_mod_cast Nat.lt_succ_iff.mp hfg
    have hb0 : (0:ℚ) ≤ bg := Nat.cast_nonneg bg
    have hf0 : (0:ℚ) ≤ fg := Nat.cast_nonneg fg
    rw [abs_sub_lt_iff]
    push_cast
    constructor <;> nlinarith
  rw [npRound_eq_of_close _ _ hq]
  exact toU8_coe fg hfg

lemma blendChan_near_zero (a : ℚ) (fg bg : ℕ) (hfg : fg < 256) (hbg : bg < 256)
    (h0 : 0 ≤ a) (h1 : a ≤ 1/1000) : blendChan a fg bg = bg := by
  unfold blendChan
  have hq : |a * fg + (1 - a) * bg - (bg : ℤ)| < 1/2 := by
    have hb : (bg : ℚ) ≤ 255 := by exact_mod_cast Nat.lt_succ_iff.mp hbg
    have hf : (fg : ℚ) ≤ 255 := by exact_mod_cast Nat.lt_succ_iff.mp hfg
    have hb0 : (0:ℚ) ≤ bg := Nat.cast_nonneg bg
    have hf0 : (0:ℚ) ≤ fg := Nat.cast_nonneg fg
    rw [abs_sub_lt_iff]
    push_cast
    constructor <;> nlinarith
  rw [npRound_eq_of_close _ _ hq]
  exact toU8_coe bg hbg

lemma blendRGB_near_one (a : ℚ) (fg bg : RGB) (hfg : chanLt256 fg)
    (hbg : chanLt256 bg) (h9 : 999/1000 ≤ a) (h1 : a ≤ 1) :
    blendRGB a fg bg = fg := by
  obtain ⟨f1, f2, f3⟩ := hfg
  obtain ⟨b1, b2, b3⟩ := hbg
  unfold blendRGB
  rw [blendChan_near_one a _ _ f1 b1 h9 h1, blendChan_near_one a _ _ f2 b2 h9 h1,
    blendChan_near_one a _ _ f3 b3 h9 h1]

lemma blendRGB_near_zero (a : ℚ) (fg bg : RGB) (hfg : chanLt256 fg)
    (hbg : chanLt256 bg) (h0 : 0 ≤ a) (h1 : a ≤ 1/1000) :
    blendRGB a fg bg = bg := by
  obtain ⟨f1, f2, f3⟩ := hfg
  obtain ⟨b1, b2, b3⟩ := hbg
  unfold blendRGB
  rw [blendChan_near_zero a _ _ f1 b1 h0 h1, blendChan_near_zero a _ _ f2 b2 h0 h1,
    blendChan_near_zero a _ _ f3 b3 h0 h1]

lemma getD_range_map (n : ℕ) (f : ℕ → RGB) (i : ℕ) (h : i < n) :
    ((List.range n).map f).getD i (0,0,0) = f i := by
  rw [List.getD_eq_getElem?_getD]
  simp [List.getElem?_map, List.getElem?_range h]

lemma zip_all_eq_false (colors original : List RGB) (i : ℕ)
    (hlen : colors.length = original.length) (hi : i < original.length)
    (hne : colors.getD i (0,0,0) ≠ original.getD i (0,0,0)) :
    (colors.zip original).all (fun p => decide (p.1 = p.2)) = false := by
  by_contra h
  rw [Bool.not_eq_false, List.all_eq_true] at h
  have hic : i < colors.length := hlen ▸ hi
  have hz : i < (colors.zip original).length := by
    rw [List.length_zip]; omega
  have hmem : (colors.getD i (0,0,0), original.getD i (0,0,0)) ∈
      colors.zip original := by
    rw [List.getD_eq_getElem _ _ hic, List.getD_eq_getElem _ _ hi]
    have hm := List.getElem_mem hz
    rwa [List.getElem_zip] at hm
  exact hne (by simpa using h _ hmem)

/-- C3 — the composited display buffer: it equals the base (enhancement, or
original when the enhancement buffer is absent or of mismatched length) when
annotations are hidden and at every unedited point; at an edited point it
equals the edited color for `α = 1`, and in general the rounded blend
`round(α·edited + (1-α)·base)` in uint8 precision — the code's `α ≥ 0.999` /
`α ≤ 0.001` short-circuits agree with the rounded blend on uint8 channels. -/
theorem composite_display_correct (visible : Bool) (a : ℚ)
    (colors original : List RGB) (enhanced : Option (List RGB)) (i : ℕ)
    (hlen : colors.length = original.length) (hi : i < original.length)
    (ha0 : 0 ≤ a) (ha1 : a ≤ 1)
    (hc : chanLt256 (colors.getD i (0,0,0)))
    (hb : chanLt256 ((current_base original enhanced).getD i (0,0,0))) :
    (visible = false →
      (update_annotation_visibility visible a colors original enhanced).getD i (0,0,0)
        = (current_base original enhanced).getD i (0,0,0)) ∧
    (colors.getD i (0,0,0) = original.getD i (0,0,0) →
      (update_annotation_visibility visible a colors original enhanced).getD i (0,0,0)
        = (current_base original enhanced).getD i (0,0,0)) ∧
    (visible = true → colors.getD i (0,0,0) ≠ original.getD i (0,0,0) → a = 1 →
      (update_annotation_visibility visible a colors original enhanced).getD i (0,0,0)
        = colors.getD i (0,0,0)) ∧
    (visible = true → colors.getD i (0,0,0) ≠ original.getD i (0,0,0) →
      (update_annotation_visibility visible a colors original enhanced).getD i (0,0,0)
        = blendRGB a (colors.getD i (0,0,0))
            ((current_base original enhanced).getD i (0,0,0))) := by
  have hbase : (current_base original enhanced).length = original.length :=
    current_base_length original enhanced
  refine ⟨?_, ?_, ?_, ?_⟩
  · intro hv
    subst hv
    simp [update_annotation_visibility]
  · intro heq
    unfold update_annotation_visibility
    cases visible with
    | false => simp
    | true =>
      by_cases hall : (colors.zip original).all (fun p => decide (p.1 = p.2))
      · simp [hall]
      · simp only [Bool.true_eq_false, if_false, Bool.not_eq_true] at hall ⊢
        rw [if_neg (by simp [hall]), getD_range_map _ _ _ (hbase ▸ hi)]
        unfold compositePoint
        rw [if_neg (by simpa using heq)]
  · intro hv hne ha
    subst hv
    unfold update_annotation_visibility
    rw [if_neg (by simp),
      if_neg (by simp [zip_all_eq_false colors original i hlen hi hne]),
      getD_range_map _ _ _ (hbase ▸ hi)]
    unfold compositePoint
    rw [if_pos hne, if_pos (by rw [ha]; norm_num)]
  · intro hv hne
    subst hv
    unfold update_annotation_visibility
    rw [if_neg (by simp),
      if_neg (by simp [zip_all_eq_false colors original i hlen hi hne]),
      getD_range_map _ _ _ (hbase ▸ hi)]
    unfold compositePoint
    rw [if_pos hne]
    by_cases h9 : a ≥ 999/1000
    · rw [if_pos h9, blendRGB_near_one a _ _ hc hb h9 ha1]
    · rw [if_neg h9]
      by_cases h0 : a ≤ 1/1000
      · rw [if_pos h0, blendRGB_near_zero a _ _ hc hb ha0 h0]
      · rw [if_neg h0]

/-- Witness for `composite_display_correct`: one edited point over an absent
enhancement buffer at `α = 1/2`. -/
theorem composite_display_correct_witness :
    (false = false →
      (update_annotation_visibility false (1/2) [(10,0,0)] [(0,0,0)] none).getD 0 (0,0,0)
        = (current_base [(0,0,0)] none).getD 0 (0,0,0)) ∧
    (([(10,0,0)] : List RGB).getD 0 (0,0,0) = ([(0,0,0)] : List RGB).getD 0 (0,0,0) →
      (update_annotation_visibility false (1/2) [(10,0,0)] [(0,0,0)] none).getD 0 (0,0,0)
        = (current_base [(0,0,0)] none).getD 0 (0,0,0)) ∧
    (false = true → ([(10,0,0)] : List RGB).getD 0 (0,0,0) ≠
        ([(0,0,0)] : List RGB).getD 0 (0,0,0) → (1/2 : ℚ) = 1 →
      (update_annotation_visibility false (1/2) [(10,0,0)] [(0,0,0)] none).getD 0 (0,0,0)
        = ([(10,0,0)] : List RGB).getD 0 (0,0,0)) ∧
    (false = true → ([(10,0,0)] : List RGB).getD 0 (0,0,0) ≠
        ([(0,0,0)] : List RGB).getD 0 (0,0,0) →
      (update_annotation_visibility false (1/2) [(10,0,0)] [(0,0,0)] none).getD 0 (0,0,0)
        = blendRGB (1/2) (([(10,0,0)] : List RGB).getD 0 (0,0,0))
            ((current_base [(0,0,0)] none).getD 0 (0,0,0))) :=
  composite_display_correct false (1/2) [(10,0,0)] [(0,0,0)] none 0
    (by norm_num) (by norm_num) (by norm_num) (by norm_num)
    (by norm_num [chanLt256]) (by norm_num [chanLt256, current_base])

/-! ## Stroke history — `interaction.py:event_filter` (press/move/release),
`annotation.py:on_undo` / `on_redo` -/

/-- One history entry `(idx, colors)`: touched indices and snapshot colors at
exactly those indices. -/
abbrev HistEntry := List ℕ × List RGB

/-- numpy fancy read `colors[idx]`. -/
def readAt (c : List RGB) (idx : List ℕ) : List RGB :=
  idx.map fun j => c.getD j (0,0,0)

/-- numpy fancy write `colors[idx] = vals`, positionally aligned; writes land
left to right (later duplicates win), out-of-range indices are inert. -/
def writeAt : List RGB → List ℕ → List RGB → List RGB
  | c, j :: idx, v :: vals => writeAt (c.set j v) idx vals
  | c, _, _ => c

/-- `_session_edited[idx] = b` on the boolean session mask. -/
def writeFlags (m : List Bool) (idx : List ℕ) (b : Bool) : List Bool :=
  match idx with
  | [] => m
  | j :: idx => writeFlags (m.set j b) idx b

/-- The annotation-session state the history claims are about: the edited
color buffer (`app.colors`), the undo stack (`app.history`, head = top), the
redo stack, the session-edited mask and the per-file dirty flag
(`app.index ∈ app._dirty`). -/
structure AnnState where
  colors : List RGB
  history : List HistEntry
  redoStack : List HistEntry
  sessionEdited : List Bool
  dirty : Bool

/-- annotation.py:261-285 — `on_undo`: pop the top history entry, push the
current colors at its indices onto the redo stack, restore the recorded
colors, clear the session-edited flags at those indices, and drop the dirty
mark when no session-edited flag remains set. -/
def on_undo (s : AnnState) : AnnState :=
  match s.history with
  | [] => s
  | (idx, old) :: h =>
    let se := writeFlags s.sessionEdited idx false
    { colors := writeAt s.colors idx old
      history := h
      redoStack := (idx, readAt s.colors idx) :: s.redoStack
      sessionEdited := se
      dirty := if se.any id then s.dirty else false }

/-- annotation.py:288-304 — `on_redo`: pop the top redo entry, push the
current colors at its indices onto the undo stack, write the recorded colors,
set the session-edited flags and mark the file dirty. -/
def on_redo (s : AnnState) : AnnState :=
  match s.redoStack with
  | [] => s
  | (idx, cols) :: r =>
    { colors := writeAt s.colors idx cols
      history := (idx, readAt s.colors idx) :: s.history
      redoStack := r
      sessionEdited := writeFlags s.sessionEdited idx true
      dirty := true }

/-- One brush stamp of a stroke (interaction.py:206-226): the indices returned
by `compute_brush_idx` at one interpolation step, with the values written
there (the broadcast paint color, or the original/clone-source colors). -/
abbrev Stamp := List ℕ × List RGB

/-- One pointer-down → pointer-up gesture: its sequence of stamps. -/
structure Stroke where
  stamps : List Stamp

/-- interaction.py:120,212 — `_stroke_idxs`: the union of the stamped index
sets, as a duplicate-free list. -/
def strokeIdxs (k : Stroke) : List ℕ := ((k.stamps.map Prod.fst).flatten).dedup

/-- interaction.py:109-251 — one committed stroke: snapshot the colors at
pointer-down (`_colors_before_stroke`), apply every stamp (writing colors,
setting session-edited flags, marking dirty on any nonempty stamp), and on
release push one `(touchedIdxs, snapshot[touchedIdxs])` entry and clear the
redo stack — or push nothing when nothing was touched. -/
def commitStroke (s : AnnState) (k : Stroke) : AnnState :=
  let before := s.colors
  let after := k.stamps.foldl (fun c st => writeAt c st.1 st.2) before
  let se := k.stamps.foldl (fun m st => writeFlags m st.1 true) s.sessionEdited
  let dirty := s.dirty || k.stamps.any (fun st => !st.1.isEmpty)
  let idxs := strokeIdxs k
  if idxs.isEmpty then
    { s with colors := after, sessionEdited := se, dirty := dirty }
  else
    { colors := after
      history := (idxs, readAt before idxs) :: s.history
      redoStack := []
      sessionEdited := se
      dirty := dirty }

/-- C4 — on pointer-up with a non-empty touched set, exactly one history entry
is pushed, holding the touched indices and the pre-stroke colors at exactly
those indices (a snapshot of length `|touched|`, not a whole-buffer copy), and
the redo stack is cleared; with an empty touched set neither stack changes. -/
theorem commit_stroke_history (s : AnnState) (k : Stroke) :
    ((strokeIdxs k).isEmpty = false →
      (commitStroke s k).history
          = (strokeIdxs k, readAt s.colors (strokeIdxs k)) :: s.history ∧
      (commitStroke s k).redoStack = [] ∧
      (readAt s.colors (strokeIdxs k)).length = (strokeIdxs k).length) ∧
    ((strokeIdxs k).isEmpty = true →
      (commitStroke s k).history = s.history ∧
      (commitStroke s k).redoStack = s.redoStack) := by
  constructor
  · intro h
    unfold commitStroke
    rw [if_neg (by simp [h])]
    exact ⟨rfl, rfl, by simp [readAt]⟩
  · intro h
    unfold commitStroke
    rw [if_pos h]
    exact ⟨rfl, rfl⟩

/-- Witness for `commit_stroke_history`: a two-stamp stroke over a three-point
cloud commits one entry with the touched indices and pre-stroke colors. -/
theorem commit_stroke_history_witness :
    (commitStroke ⟨[(1,1,1),(2,2,2),(3,3,3)], [], [([0],[(9,9,9)])], [false,false,false], false⟩
        ⟨[([0,1],[(7,0,0),(7,0,0)]), ([1,2],[(8,0,0),(8,0,0)])]⟩).history
      = [([0,1,2], [(1,1,1),(2,2,2),(3,3,3)])] ∧
    (commitStroke ⟨[(1,1,1),(2,2,2),(3,3,3)], [], [([0],[(9,9,9)])], [false,false,false], false⟩
        ⟨[([0,1],[(7,0,0),(7,0,0)]), ([1,2],[(8,0,0),(8,0,0)])]⟩).redoStack = [] := by
  have h := commit_stroke_history
    ⟨[(1,1,1),(2,2,2),(3,3,3)], [], [([0],[(9,9,9)])], [false,false,false], false⟩
    ⟨[([0,1],[(7,0,0),(7,0,0)]), ([1,2],[(8,0,0),(8,0,0)])]⟩
  have h1 := h.1 (by decide)
  refine ⟨?_, h1.2.1⟩
  rw [h1.1]
  decide

/-- A session refuting the "recomputed from the buffers" reading of the dirty
check: over an all-black original, stroke one paints point 0 with the original
color (black on black), stroke two paints point 1 red. -/
def undoDirtyScene : AnnState :=
  commitStroke
    (commitStroke ⟨[(0,0,0),(0,0,0)], [], [], [false,false], false⟩
      ⟨[([0], [(0,0,0)])]⟩)
    ⟨[([1], [(255,0,0)])]⟩

/-- C9 — counterexample.  Undoing the red stroke restores the edited buffer to
the original `[(0,0,0),(0,0,0)]` — no point differs from its original color —
yet the dirty flag stays set, because `on_undo` consults the `_session_edited`
bookkeeping mask (still set at point 0) instead of recomputing the
edited-versus-original comparison from the buffers. -/
theorem undo_dirty_recompute_counterexample :
    (on_undo undoDirtyScene).colors = [(0,0,0),(0,0,0)] ∧
    (on_undo undoDirtyScene).dirty = true := by decide

/-- C9 (amended) — after an `undo()` that pops an entry, the dirty flag is
cleared exactly when either the session-edited bookkeeping mask (with the
popped indices unset) has no flag left, or the file was already clean; the
condition is read off the bookkeeping mask, not recomputed from an
edited-versus-original buffer comparison. -/
theorem on_undo_dirty_from_bookkeeping (s : AnnState) (hs : s.history ≠ []) :
    ((on_undo s).dirty = false ↔
      ((on_undo s).sessionEdited.any id = false ∨ s.dirty = false)) := by
  rcases s with ⟨c, hist, r, se, d⟩
  cases hist with
  | nil => exact absurd rfl hs
  | cons e h =>
    obtain ⟨idx, old⟩ := e
    show ((if (writeFlags se idx false).any id then d else false) = false ↔
      ((writeFlags se idx false).any id = false ∨ d = false))
    by_cases ha : (writeFlags se idx false).any id
    · simp [ha]
    · simp [ha]

/-- Witness for `on_undo_dirty_from_bookkeeping` on the two-stroke session. -/
theorem on_undo_dirty_from_bookkeeping_witness :
    ((on_undo undoDirtyScene).dirty = false ↔
      ((on_undo undoDirtyScene).sessionEdited.any id = false ∨
        undoDirtyScene.dirty = false)) :=
  on_undo_dirty_from_bookkeeping undoDirtyScene (by decide)

/-! ### Undo/redo round trip (C2) -/

lemma writeAt_nil_idx (cl vals : List RGB) : writeAt cl [] vals = cl := by
  cases vals <;> rfl

lemma writeAt_cons (cl : List RGB) (j : ℕ) (idx : List ℕ) (v : RGB)
    (vals : List RGB) : writeAt cl (j :: idx) (v :: vals) = writeAt (cl.set j v) idx vals := rfl

lemma writeAt_length (idx : List ℕ) (vals cl : List RGB) :
    (writeAt cl idx vals).length = cl.length := by
  induction idx generalizing vals cl with
  | nil => rw [writeAt_nil_idx]
  | cons j idx ih =>
    cases vals with
    | nil => rfl
    | cons v vals => rw [writeAt_cons, ih, List.length_set]

lemma writeAt_get_not_mem {j : ℕ} (idx : List ℕ) (vals cl : List RGB)
    (h : j ∉ idx) : (writeAt cl idx vals)[j]? = cl[j]? := by
  induction idx generalizing vals cl with
  | nil => rw [writeAt_nil_idx]
  | cons i idx ih =>
    cases vals with
    | nil => rfl
    | cons v vals =>
      rw [writeAt_cons, ih _ _ (fun hm => h (List.mem_cons_of_mem i hm))]
      exact List.getElem?_set_ne (fun he => h (by rw [← he]; exact List.mem_cons_self i idx))

lemma readAt_writeAt (idx : List ℕ) (vals cl : List RGB) (hnd : idx.Nodup)
    (hlt : ∀ j ∈ idx, j < cl.length) (hlen : vals.length = idx.length) :
    readAt (writeAt cl idx vals) idx = vals := by
  induction idx generalizing vals cl with
  | nil => cases vals with | nil => rfl | cons v vals => simp at hlen
  | cons j idx ih =>
    cases vals with
    | nil => simp at hlen
    | cons v vals =>
      obtain ⟨hj, hnd'⟩ := List.nodup_cons.mp hnd
      rw [writeAt_cons, readAt, List.map_cons]
      have h1 : (writeAt (cl.set j v) idx vals).getD j (0,0,0) = v := by
        rw [List.getD_eq_getElem?_getD, writeAt_get_not_mem idx vals _ hj,
          List.getElem?_set_self (hlt j (List.mem_cons_self j idx))]
        rfl
      have h2 : readAt (writeAt (cl.set j v) idx vals) idx = vals := by
        refine ih vals (cl.set j v) hnd' (fun i hi => ?_) (by simpa using hlen)
        rw [List.length_set]
        exact hlt i (List.mem_cons_of_mem j hi)
      rw [readAt] at h2
      rw [h1, h2]

lemma writeAt_restore_mem {j : ℕ} (idx : List ℕ) (c0 X : List RGB)
    (hlen : X.length = c0.length) (hj : j ∈ idx) :
    (writeAt X idx (readAt c0 idx))[j]? = c0[j]? := by
  induction idx generalizing X with
  | nil => simp at hj
  | cons i idx ih =>
    rw [readAt, List.map_cons, writeAt_cons]
    by_cases hji : j ∈ idx
    · have := ih (X.set i (c0.getD i (0,0,0)))
        (by rw [List.length_set]; exact hlen) hji
      rw [readAt] at this
      exact this
    · have hij : j = i := by
        rcases List.mem_cons.mp hj with h | h
        · exact h
        · exact absurd h hji
      subst hij
      have hmap : List.map (fun k => c0.getD k (0,0,0)) idx = readAt c0 idx := rfl
      rw [hmap, writeAt_get_not_mem idx _ _ hji]
      by_cases hlt : j < X.length
      · rw [List.getElem?_set_self hlt, List.getD_eq_getElem c0 _ (hlen ▸ hlt),
          List.getElem?_eq_getElem (hlen ▸ hlt)]
      · rw [List.set_eq_of_length_le (le_of_not_lt hlt),
          List.getElem?_eq_none_iff.mpr (le_of_not_lt hlt),
          List.getElem?_eq_none_iff.mpr (le_of_not_lt (hlen ▸ hlt))]

lemma writeAt_restore (idx : List ℕ) (vals cl : List RGB) :
    writeAt (writeAt cl idx vals) idx (readAt cl idx) = cl := by
  apply List.ext_getElem?
  intro j
  by_cases hj : j ∈ idx
  · exact writeAt_restore_mem idx cl _ (writeAt_length idx vals cl) hj
  · rw [writeAt_get_not_mem idx _ _ hj, writeAt_get_not_mem idx _ _ hj]

/-- The `(colors, history, redoStack)` fragment of the session state; it
evolves autonomously (the session mask and dirty flag never feed back into
it), which the `proj_*` lemmas below make precise. -/
structure HistCore where
  colors : List RGB
  history : List HistEntry
  redoStack : List HistEntry

/-- Forget the session mask and dirty flag. -/
def proj (s : AnnState) : HistCore := ⟨s.colors, s.history, s.redoStack⟩

/-- `on_undo` restricted to the core fragment. -/
def undoCore (c : HistCore) : HistCore :=
  match c.history with
  | [] => c
  | (idx, old) :: h =>
    ⟨writeAt c.colors idx old, h, (idx, readAt c.colors idx) :: c.redoStack⟩

/-- `on_redo` restricted to the core fragment. -/
def redoCore (c : HistCore) : HistCore :=
  match c.redoStack with
  | [] => c
  | (idx, cols) :: r =>
    ⟨writeAt c.colors idx cols, (idx, readAt c.colors idx) :: c.history, r⟩

/-- `commitStroke` restricted to the core fragment. -/
def commitCore (c : HistCore) (k : Stroke) : HistCore :=
  let after := k.stamps.foldl (fun cc st => writeAt cc st.1 st.2) c.colors
  if (strokeIdxs k).isEmpty then { c with colors := after }
  else ⟨after, (strokeIdxs k, readAt c.colors (strokeIdxs k)) :: c.history, []⟩

lemma proj_on_undo (s : AnnState) : proj (on_undo s) = undoCore (proj s) := by
  rcases s with ⟨cl, hist, r, se, d⟩
  cases hist with
  | nil => rfl
  | cons e h => obtain ⟨idx, old⟩ := e; rfl

lemma proj_on_redo (s : AnnState) : proj (on_redo s) = redoCore (proj s) := by
  rcases s with ⟨cl, hist, r, se, d⟩
  cases r with
  | nil => rfl
  | cons e r => obtain ⟨idx, cols⟩ := e; rfl

lemma proj_commitStroke (s : AnnState) (k : Stroke) :
    proj (commitStroke s k) = commitCore (proj s) k := by
  rcases s with ⟨cl, hist, r, se, d⟩
  unfold commitStroke commitCore proj
  by_cases h : (strokeIdxs k).isEmpty <;> simp [h]

lemma proj_undo_iterate (n : ℕ) (s : AnnState) :
    proj (on_undo^[n] s) = undoCore^[n] (proj s) := by
  induction n generalizing s with
  | zero => rfl
  | succ n ih =>
    rw [Function.iterate_succ_apply, Function.iterate_succ_apply, ih,
      proj_on_undo]

lemma proj_redo_iterate (n : ℕ) (s : AnnState) :
    proj (on_redo^[n] s) = redoCore^[n] (proj s) := by
  induction n generalizing s with
  | zero => rfl
  | succ n ih =>
    rw [Function.iterate_succ_apply, Function.iterate_succ_apply, ih,
      proj_on_redo]

lemma proj_commit_foldl (S : List Stroke) (s : AnnState) :
    proj (S.foldl commitStroke s) = S.foldl commitCore (proj s) := by
  induction S generalizing s with
  | nil => rfl
  | cons k S ih => rw [List.foldl_cons, List.foldl_cons, ih, proj_commitStroke]

/-- A well-formed history entry over a buffer of length `n`: duplicate-free
in-range indices with a snapshot of matching length. -/
def EntryWF (n : ℕ) (e : HistEntry) : Prop :=
  e.1.Nodup ∧ (∀ j ∈ e.1, j < n) ∧ e.2.length = e.1.length

/-- Core-state well-formedness: buffer length `n`, every undo entry WF. -/
def CoreGood (n : ℕ) (c : HistCore) : Prop :=
  c.colors.length = n ∧ ∀ e ∈ c.history, EntryWF n e

lemma redo_undo_core (n : ℕ) (c : HistCore) (hg : CoreGood n c)
    (hne : c.history ≠ []) : redoCore (undoCore c) = c := by
  obtain ⟨hcol, hWF⟩ := hg
  rcases c with ⟨col, hist, r⟩
  cases hist with
  | nil => exact absurd rfl hne
  | cons e h =>
    obtain ⟨idx, old⟩ := e
    obtain ⟨hnd, hlt, hlen⟩ := hWF (idx, old) (List.mem_cons_self _ _)
    show (⟨writeAt (writeAt col idx old) idx (readAt col idx),
        (idx, readAt (writeAt col idx old) idx) :: h, r⟩ : HistCore)
      = ⟨col, (idx, old) :: h, r⟩
    rw [writeAt_restore,
      readAt_writeAt idx old col hnd (fun j hj => hcol ▸ hlt j hj) hlen]

lemma undoCore_nil_history (c : HistCore) (h : c.history = []) :
    undoCore c = c := by
  rcases c with ⟨col, hist, r⟩
  cases h
  rfl

lemma redoCore_nil_redo (c : HistCore) (h : c.redoStack = []) :
    redoCore c = c := by
  rcases c with ⟨col, hist, r⟩
  cases h
  rfl

lemma undoCore_iterate_nil (n : ℕ) (c : HistCore) (h : c.history = []) :
    undoCore^[n] c = c := by
  induction n with
  | zero => rfl
  | succ n ih =>
    rw [Function.iterate_succ_apply, undoCore_nil_history c h, ih]

lemma redoCore_iterate_nil (n : ℕ) (c : HistCore) (h : c.redoStack = []) :
    redoCore^[n] c = c := by
  induction n with
  | zero => rfl
  | succ n ih =>
    rw [Function.iterate_succ_apply, redoCore_nil_redo c h, ih]

lemma undoCore_history_tail (c : HistCore) :
    (undoCore c).history = c.history.tail := by
  rcases c with ⟨col, hist, r⟩
  cases hist with
  | nil => rfl
  | cons e h => obtain ⟨idx, old⟩ := e; rfl

lemma undoCore_iterate_absorb (m n : ℕ) (c : HistCore)
    (hm : c.history.length = m) (hmn : m ≤ n) :
    undoCore^[n] c = undoCore^[m] c := by
  induction m generalizing c n with
  | zero =>
    rw [undoCore_iterate_nil n c (List.length_eq_zero.mp hm)]
    rfl
  | succ m ih =>
    obtain ⟨n', rfl⟩ : ∃ n', n = n' + 1 := ⟨n - 1, by omega⟩
    rw [Function.iterate_succ_apply, Function.iterate_succ_apply]
    refine ih n' (undoCore c) ?_ (by omega)
    rw [undoCore_history_tail, List.length_tail, hm]
    omega

lemma undoCore_good (n : ℕ) (c : HistCore) (hg : CoreGood n c) :
    CoreGood n (undoCore c) := by
  obtain ⟨hcol, hWF⟩ := hg
  rcases c with ⟨col, hist, r⟩
  cases hist with
  | nil => exact ⟨hcol, hWF⟩
  | cons e h =>
    obtain ⟨idx, old⟩ := e
    exact ⟨by simpa [undoCore, writeAt_length] using hcol,
      fun e' he' => hWF e' (List.mem_cons_of_mem _ he')⟩

lemma redo_undo_iterate (m : ℕ) (n : ℕ) (c : HistCore) (hg : CoreGood n c)
    (hm : m ≤ c.history.length) :
    redoCore^[m] (undoCore^[m] c) = c := by
  induction m generalizing c with
  | zero => rfl
  | succ m ih =>
    have hne : c.history ≠ [] := by
      intro h
      rw [h] at hm
      simp at hm
    rw [show undoCore^[m+1] c = undoCore^[m] (undoCore c) from
        Function.iterate_succ_apply _ _ _,
      Function.iterate_succ_apply' redoCore m,
      ih (undoCore c) (undoCore_good n c hg)
        (by rw [undoCore_history_tail, List.length_tail]; omega),
      redo_undo_core n c hg hne]

lemma core_roundtrip (c : HistCore) (n N : ℕ) (hg : CoreGood n c)
    (hr : c.redoStack = []) (hN : c.history.length ≤ N) :
    redoCore^[N] (undoCore^[N] c) = c := by
  have habs := undoCore_iterate_absorb c.history.length N c rfl hN
  rw [habs]
  obtain ⟨d, hd⟩ : ∃ d, N = d + c.history.length := ⟨N - c.history.length, by omega⟩
  rw [hd, Function.iterate_add_apply,
    redo_undo_iterate c.history.length n c hg le_rfl,
    redoCore_iterate_nil d c hr]

lemma foldl_writeAt_length (stamps : List Stamp) (cl : List RGB) :
    (stamps.foldl (fun cc st => writeAt cc st.1 st.2) cl).length = cl.length := by
  induction stamps generalizing cl with
  | nil => rfl
  | cons st stamps ih => rw [List.foldl_cons, ih, writeAt_length]

lemma readAt_length (cl : List RGB) (idx : List ℕ) :
    (readAt cl idx).length = idx.length := by
  simp [readAt]

lemma strokeIdxs_lt (k : Stroke) (n : ℕ)
    (hk : ∀ st ∈ k.stamps, ∀ j ∈ st.1, j < n) :
    ∀ j ∈ strokeIdxs k, j < n := by
  intro j hj
  rw [strokeIdxs, List.mem_dedup, List.mem_flatten] at hj
  obtain ⟨l, hl, hjl⟩ := hj
  rw [List.mem_map] at hl
  obtain ⟨st, hst, rfl⟩ := hl
  exact hk st hst j hjl

lemma commitCore_good (n : ℕ) (c : HistCore) (k : Stroke) (hg : CoreGood n c)
    (hk : ∀ st ∈ k.stamps, ∀ j ∈ st.1, j < n) :
    CoreGood n (commitCore c k) ∧
    (c.redoStack = [] → (commitCore c k).redoStack = []) ∧
    (commitCore c k).history.length ≤ c.history.length + 1 := by
  obtain ⟨hcol, hWF⟩ := hg
  unfold commitCore
  by_cases h : (strokeIdxs k).isEmpty
  · rw [if_pos h]
    exact ⟨⟨by simpa [foldl_writeAt_length] using hcol, hWF⟩,
      fun hr => hr, Nat.le_succ _⟩
  · rw [if_neg h]
    refine ⟨⟨by simpa [foldl_writeAt_length] using hcol, ?_⟩, fun _ => rfl, by simp⟩
    intro e he
    rcases List.mem_cons.mp he with rfl | he'
    · exact ⟨List.nodup_dedup _, strokeIdxs_lt k n hk, readAt_length _ _⟩
    · exact hWF e he'

lemma foldl_commitCore_good (S : List Stroke) (n : ℕ) (c : HistCore)
    (hg : CoreGood n c) (hr : c.redoStack = [])
    (hk : ∀ k ∈ S, ∀ st ∈ k.stamps, ∀ j ∈ st.1, j < n) :
    CoreGood n (S.foldl commitCore c) ∧
    (S.foldl commitCore c).redoStack = [] ∧
    (S.foldl commitCore c).history.length ≤ c.history.length + S.length := by
  induction S generalizing c with
  | nil => exact ⟨hg, hr, by simp⟩
  | cons k S ih =>
    obtain ⟨h1, h2, h3⟩ := commitCore_good n c k hg (hk k (List.mem_cons_self _ _))
    obtain ⟨g1, g2, g3⟩ := ih (commitCore c k) h1 (h2 hr)
      (fun k' hk' => hk k' (List.mem_cons_of_mem _ hk'))
    refine ⟨g1, g2, ?_⟩
    rw [List.foldl_cons]
    calc ((S.foldl commitCore (commitCore c k)).history).length
        ≤ (commitCore c k).history.length + S.length := g3
      _ ≤ c.history.length + (k :: S).length := by simp; omega

/-- C2 — for every initial edited buffer and every sequence `S` of committed
strokes (all touched indices in range), `len S` undos followed by `len S`
redos restore the edited color buffer elementwise to its post-`S` state. -/
theorem undo_redo_roundtrip (init : List RGB) (S : List Stroke)
    (hS : ∀ k ∈ S, ∀ st ∈ k.stamps, ∀ j ∈ st.1, j < init.length) :
    (on_redo^[S.length] (on_undo^[S.length] (S.foldl commitStroke
        ⟨init, [], [], List.replicate init.length false, false⟩))).colors
      = (S.foldl commitStroke
        ⟨init, [], [], List.replicate init.length false, false⟩).colors := by
  set s0 : AnnState := ⟨init, [], [], List.replicate init.length false, false⟩
    with hs0
  have hcore : redoCore^[S.length] (undoCore^[S.length]
      (proj (S.foldl commitStroke s0))) = proj (S.foldl commitStroke s0) := by
    rw [proj_commit_foldl]
    have hbase : CoreGood init.length (proj s0) :=
      ⟨rfl, fun e he => absurd he (List.not_mem_nil e)⟩
    obtain ⟨hg, hr, hlen⟩ := foldl_commitCore_good S init.length (proj s0)
      hbase rfl hS
    exact core_roundtrip _ init.length S.length hg hr (by simpa [hs0, proj] using hlen)
  have hproj : proj (on_redo^[S.length] (on_undo^[S.length]
      (S.foldl commitStroke s0))) = proj (S.foldl commitStroke s0) := by
    rw [proj_redo_iterate, proj_undo_iterate, hcore]
  exact congrArg HistCore.colors hproj

/-- Witness for `undo_redo_roundtrip`: one single-stamp stroke on a one-point
cloud. -/
theorem undo_redo_roundtrip_witness :
    (on_redo^[([⟨[([0], [(5,5,5)])]⟩] : List Stroke).length]
      (on_undo^[([⟨[([0], [(5,5,5)])]⟩] : List Stroke).length]
        (([⟨[([0], [(5,5,5)])]⟩] : List Stroke).foldl commitStroke
          ⟨[(0,0,0)], [], [],
            List.replicate ([(0,0,0)] : List RGB).length false, false⟩))).colors
      = (([⟨[([0], [(5,5,5)])]⟩] : List Stroke).foldl commitStroke
          ⟨[(0,0,0)], [], [],
            List.replicate ([(0,0,0)] : List RGB).length false, false⟩).colors :=
  undo_redo_roundtrip [(0,0,0)] [⟨[([0], [(5,5,5)])]⟩] (by decide)

/-! ## Load-time original-color substitution — `io.py:load_cloud` (416-427) -/

/-- A paired "original" cloud file as read from disk: its point count, and its
RGB array when it has one (`"RGB" in pc0.array_names`). -/
structure OrigFile where
  npoints : ℕ
  rgb : Option (List RGB)

/-- io.py:416-427 — `original_colors` starts as a copy of the annotated file's
colors; a paired original file replaces it only when it both carries an RGB
array and has exactly the annotated file's point count.  `none` stands for a
missing (or unreadable) original file. -/
def load_original_colors (annotColors : List RGB) (npts : ℕ)
    (orig : Option OrigFile) : List RGB :=
  match orig with
  | none => annotColors
  | some f =>
    match f.rgb with
    | none => annotColors
    | some rgb0 => if f.npoints = npts then rgb0 else annotColors

/-- C8 — when the paired original file has a different point count than the
annotated file (or carries no colors), its colors are not substituted: the
annotated file's own colors serve as the original buffer; and in every case
the resulting original buffer has the annotated buffer's length, so the
per-index alignment of the color buffers is preserved. -/
theorem original_substitution_safe (annotColors : List RGB) (npts : ℕ)
    (orig : Option OrigFile)
    (hA : annotColors.length = npts)
    (hO : ∀ f ∈ orig, ∀ rgb0 ∈ f.rgb, rgb0.length = f.npoints) :
    ((∀ f ∈ orig, f.npoints ≠ npts ∨ f.rgb = none) →
      load_original_colors annotColors npts orig = annotColors) ∧
    (load_original_colors annotColors npts orig).length = annotColors.length := by
  cases orig with
  | none => exact ⟨fun _ => rfl, rfl⟩
  | some f =>
    obtain ⟨np0, rgb0?⟩ := f
    cases rgb0? with
    | none => exact ⟨fun _ => rfl, rfl⟩
    | some rgb0 =>
      constructor
      · intro hrej
        rcases hrej ⟨np0, some rgb0⟩ (Option.mem_def.mpr rfl) with hne | hnone
        · show (if np0 = npts then rgb0 else annotColors) = annotColors
          rw [if_neg hne]
        · simp at hnone
      · show (if np0 = npts then rgb0 else annotColors).length = annotColors.length
        by_cases he : np0 = npts
        · rw [if_pos he]
          rw [hO ⟨np0, some rgb0⟩ (Option.mem_def.mpr rfl) rgb0 rfl, he, hA]
        · rw [if_neg he]

/-- Witness for `original_substitution_safe`: a two-point original file paired
with a one-point annotated file is rejected. -/
theorem original_substitution_safe_witness :
    ((∀ f ∈ some (⟨2, some [(1,1,1),(2,2,2)]⟩ : OrigFile),
        f.npoints ≠ 1 ∨ f.rgb = none) →
      load_original_colors [(0,0,0)] 1 (some ⟨2, some [(1,1,1),(2,2,2)]⟩)
        = [(0,0,0)]) ∧
    (load_original_colors [(0,0,0)] 1
        (some ⟨2, some [(1,1,1),(2,2,2)]⟩)).length
      = ([(0,0,0)] : List RGB).length :=
  original_substitution_safe [(0,0,0)] 1 (some ⟨2, some [(1,1,1),(2,2,2)]⟩)
    (by decide) (by decide)

/-! ## Shared-camera fitting — `camera.py:fit_shared_camera_once` (160-219)
and `mesh_bounds_in_camera_xy` (134-157).

The camera-space coordinates of the eight bounding-box corners (the output of
the view transform) are the model's input: `(x, y, ζ)` with `ζ` the corner's
offset along the view axis toward the camera; the code measures only the x/y
half-extents (camera.py:151-156).  The fitted view axis passes through the box
centre, which `fit_shared_camera_once` establishes by `SetFocalPoint(center)`
along the retained direction of projection.  The perspective branch works over
`ℝ` so the radian floors of camera.py:209 and 213 are exact: `T` stands for
the floored vertical half-angle tangent `tan(max(vfov,1e-3)/2)` (hence
`tanFloor ≤ T`), and the floored horizontal half-angle tangent is
`tan(max(2·atan(T·max(a,1e-6)), 1e-3)/2) = max(T·max(a,1e-6), tanFloor)` by
monotonicity of `tan` on `(0, π/2)`. -/

noncomputable section

/-- Fold maximum of a list of reals (empty list defaults to 0). -/
def maxList (l : List ℝ) : ℝ := l.foldl max (l.headD 0)

/-- Fold minimum of a list of reals (empty list defaults to 0). -/
def minList (l : List ℝ) : ℝ := l.foldl min (l.headD 0)

/-- camera.py:155-156 — `0.5 * (x.max() - x.min())`. -/
def halfExtent (l : List ℝ) : ℝ := (maxList l - minList l) / 2

/-- Centre of the extent; the fitted view axis passes through it. -/
def midExtent (l : List ℝ) : ℝ := (maxList l + minList l) / 2

/-- Camera-space x coordinates of the bounding-box corners. -/
def xsOf (corners : List (ℝ × ℝ × ℝ)) : List ℝ := corners.map fun p => p.1

/-- Camera-space y coordinates of the bounding-box corners. -/
def ysOf (corners : List (ℝ × ℝ × ℝ)) : List ℝ := corners.map fun p => p.2.1

/-- Axial (toward-the-camera) offsets of the bounding-box corners. -/
def zsOf (corners : List (ℝ × ℝ × ℝ)) : List ℝ := corners.map fun p => p.2.2

/-- camera.py:197-199 — parallel branch: `max(half_h, half_w / max(a, 1e-6))`. -/
def parallel_scale_for (halfW halfH a : ℝ) : ℝ :=
  max halfH (halfW / max a (1/10^6))

/-- camera.py:199-200 — `scale = max(s1, s2) * pad`, the shared parallel
scale serving both viewports. -/
def fit_shared_parallel (halfW halfH a1 a2 pad : ℝ) : ℝ :=
  max (parallel_scale_for halfW halfH a1) (parallel_scale_for halfW halfH a2) * pad

/-- `tan(5e-4)`: the tangent of half the code's `1e-3`-radian field-of-view
floor (camera.py:209 `vfov = max(vfov, 1e-3)`, camera.py:213
`hfov = max(hfov, 1e-3)`). -/
def tanFloor : ℝ := Real.tan (1/2000)

/-- camera.py:210-215 — perspective `dist_needed(aspect)`:
`max(half_h / tan(vfov/2), half_w / tan(hfov/2))`, where `T` is the floored
vertical half-angle tangent and the floored horizontal half-angle tangent is
`max(T·max(a,1e-6), tanFloor)`. -/
def dist_needed (T halfW halfH a : ℝ) : ℝ :=
  max (halfH / T) (halfW / max (T * max a (1/10^6)) tanFloor)

/-- camera.py:217 — `dist = max(dist_needed(a1), dist_needed(a2)) * pad`. -/
def fit_shared_persp (T halfW halfH a1 a2 pad : ℝ) : ℝ :=
  max (dist_needed T halfW halfH a1) (dist_needed T halfW halfH a2) * pad

end

/-- The mesh bounds (given by their camera-space corners) project inside a
centred orthographic view window of vertical half-extent `v` and aspect `a`
(in parallel projection the x/y camera coordinates are depth-independent). -/
def fitsViewport (corners : List (ℝ × ℝ × ℝ)) (v a : ℝ) : Prop :=
  ∀ p ∈ corners,
    |p.1 - midExtent (xsOf corners)| ≤ v * a ∧
    |p.2.1 - midExtent (ysOf corners)| ≤ v

/-- Every bounding-box corner lies inside the view frustum of a perspective
camera looking at the box centre from distance `dist`: at the corner's own
depth `dist - ζ` its x/y offsets fit the visible half-extents
`depth·T·a` and `depth·T`. -/
def inFrustum (corners : List (ℝ × ℝ × ℝ)) (dist T a : ℝ) : Prop :=
  ∀ p ∈ corners,
    0 ≤ dist - (p.2.2 - midExtent (zsOf corners)) ∧
    |p.1 - midExtent (xsOf corners)|
      ≤ (dist - (p.2.2 - midExtent (zsOf corners))) * (T * a) ∧
    |p.2.1 - midExtent (ysOf corners)|
      ≤ (dist - (p.2.2 - midExtent (zsOf corners))) * T

lemma le_foldl_max (a : ℝ) (l : List ℝ) : a ≤ l.foldl max a := by
  induction l generalizing a with
  | nil => exact le_rfl
  | cons x l ih => exact le_trans (le_max_left a x) (ih (max a x))

lemma foldl_min_le (a : ℝ) (l : List ℝ) : l.foldl min a ≤ a := by
  induction l generalizing a with
  | nil => exact le_rfl
  | cons x l ih => exact le_trans (ih (min a x)) (min_le_left a x)

lemma mem_le_foldl_max {x : ℝ} (a : ℝ) (l : List ℝ) (h : x ∈ l) :
    x ≤ l.foldl max a := by
  induction l generalizing a with
  | nil => simp at h
  | cons y l ih =>
    rcases List.mem_cons.mp h with rfl | h'
    · exact le_trans (le_max_right a x) (le_foldl_max _ l)
    · exact ih (max a y) h'

lemma foldl_min_le_mem {x : ℝ} (a : ℝ) (l : List ℝ) (h : x ∈ l) :
    l.foldl min a ≤ x := by
  induction l generalizing a with
  | nil => simp at h
  | cons y l ih =>
    rcases List.mem_cons.mp h with rfl | h'
    · exact le_trans (foldl_min_le _ l) (min_le_right a x)
    · exact ih (min a y) h'

lemma minList_le_maxList (l : List ℝ) : minList l ≤ maxList l :=
  le_trans (foldl_min_le _ l) (le_foldl_max _ l)

lemma halfExtent_nonneg (l : List ℝ) : 0 ≤ halfExtent l := by
  have := minList_le_maxList l
  unfold halfExtent
  linarith

lemma abs_sub_mid_le_halfExtent {x : ℝ} (l : List ℝ) (h : x ∈ l) :
    |x - midExtent l| ≤ halfExtent l := by
  have h1 : x ≤ maxList l := mem_le_foldl_max _ l h
  have h2 : minList l ≤ x := foldl_min_le_mem _ l h
  rw [abs_le]
  unfold midExtent halfExtent
  constructor <;> linarith

lemma fitsViewport_of_bounds (corners : List (ℝ × ℝ × ℝ)) (v a : ℝ)
    (h1 : halfExtent (ysOf corners) ≤ v)
    (h2 : halfExtent (xsOf corners) ≤ v * a) :
    fitsViewport corners v a := by
  intro p hp
  refine ⟨le_trans (abs_sub_mid_le_halfExtent _ ?_) h2,
    le_trans (abs_sub_mid_le_halfExtent _ ?_) h1⟩
  · exact List.mem_map_of_mem _ hp
  · exact List.mem_map_of_mem _ hp

lemma tanFloor_pos : 0 < tanFloor := by
  apply Real.tan_pos_of_pos_of_lt_pi_div_two
  · norm_num
  · have := Real.pi_gt_three
    linarith

lemma tanFloor_lt_one : tanFloor < 1 := by
  have h := Real.tan_lt_tan_of_nonneg_of_lt_pi_div_two
    (x := 1/2000) (y := Real.pi/4) (by norm_num)
    (by have := Real.pi_pos; linarith)
    (by have := Real.pi_gt_three; linarith)
  rwa [Real.tan_pi_div_four] at h

/-- C7 (amended) — `fit_shared_camera_once` computes the required parallel
scale (resp. perspective distance) separately for each viewport aspect ratio
and sets the shared camera to the padded maximum of the two.  In parallel
projection every bounding-box corner then projects within both viewports'
visible extents, for any aspects ≥ 1e-6 and padding ≥ 1.  In perspective the
guarantee is conditional: when the field-of-view floors do not bind
(`tanFloor ≤ T·aᵢ`) and the box's axial half-extent is absorbed by the
padding margin (`halfExtent ζ ≤ (pad-1)·max(dist_needed a1, dist_needed a2)`),
every corner lies in both view frusta at its own depth; for deeper boxes the
near corners clip (`fit_shared_perspective_counterexample`). -/
theorem fit_shared_camera_once_covers (corners : List (ℝ × ℝ × ℝ))
    (a1 a2 pad T : ℝ) (hT : tanFloor ≤ T)
    (ha1 : 1/10^6 ≤ a1) (ha2 : 1/10^6 ≤ a2) (hpad : 1 ≤ pad) :
    (fitsViewport corners
      (fit_shared_parallel (halfExtent (xsOf corners))
        (halfExtent (ysOf corners)) a1 a2 pad) a1 ∧
     fitsViewport corners
      (fit_shared_parallel (halfExtent (xsOf corners))
        (halfExtent (ysOf corners)) a1 a2 pad) a2) ∧
    (tanFloor ≤ T * a1 → tanFloor ≤ T * a2 →
     halfExtent (zsOf corners)
        ≤ (pad - 1) * max
            (dist_needed T (halfExtent (xsOf corners)) (halfExtent (ysOf corners)) a1)
            (dist_needed T (halfExtent (xsOf corners)) (halfExtent (ysOf corners)) a2) →
     inFrustum corners
        (fit_shared_persp T (halfExtent (xsOf corners))
          (halfExtent (ysOf corners)) a1 a2 pad) T a1 ∧
     inFrustum corners
        (fit_shared_persp T (halfExtent (xsOf corners))
          (halfExtent (ysOf corners)) a1 a2 pad) T a2) := by
  set hw := halfExtent (xsOf corners) with hhw
  set hh := halfExtent (ysOf corners) with hhh
  have hw0 : 0 ≤ hw := halfExtent_nonneg _
  have hh0 : 0 ≤ hh := halfExtent_nonneg _
  have hT0 : 0 < T := lt_of_lt_of_le tanFloor_pos hT
  have heps : (0:ℝ) < 1/10^6 := by norm_num
  have ha1p : 0 < a1 := lt_of_lt_of_le heps ha1
  have ha2p : 0 < a2 := lt_of_lt_of_le heps ha2
  have hm1 : max a1 (1/10^6) = a1 := max_eq_left ha1
  have hm2 : max a2 (1/10^6) = a2 := max_eq_left ha2
  constructor
  · have hs1 : parallel_scale_for hw hh a1 = max hh (hw / a1) := by
      unfold parallel_scale_for; rw [hm1]
    have hs2 : parallel_scale_for hw hh a2 = max hh (hw / a2) := by
      unfold parallel_scale_for; rw [hm2]
    set S := max (parallel_scale_for hw hh a1) (parallel_scale_for hw hh a2)
      with hS
    have hSnn : 0 ≤ S := le_trans hh0 (le_trans (hs1 ▸ le_max_left _ _)
      (le_max_left _ _))
    have hSpad : S ≤ S * pad := le_mul_of_one_le_right hSnn hpad
    have hhS : hh ≤ S * pad :=
      le_trans (le_trans (hs1 ▸ le_max_left _ _) (le_max_left _ _)) hSpad
    have hwS : ∀ a, parallel_scale_for hw hh a = max hh (hw / a) → 0 < a →
        parallel_scale_for hw hh a ≤ S → hw ≤ S * pad * a := by
      intro a hsa hap hle
      have h1 : hw / a ≤ S * pad :=
        le_trans (le_trans (hsa ▸ le_max_right _ _) hle) hSpad
      calc hw = (hw / a) * a := by field_simp
        _ ≤ (S * pad) * a := mul_le_mul_of_nonneg_right h1 hap.le
    exact ⟨fitsViewport_of_bounds corners _ a1 hhS
        (hwS a1 hs1 ha1p (le_max_left _ _)),
      fitsViewport_of_bounds corners _ a2 hhS
        (hwS a2 hs2 ha2p (le_max_right _ _))⟩
  · intro hf1 hf2 hdepth
    have hd1 : dist_needed T hw hh a1 = max (hh / T) (hw / (T * a1)) := by
      unfold dist_needed
      rw [hm1, max_eq_left hf1]
    have hd2 : dist_needed T hw hh a2 = max (hh / T) (hw / (T * a2)) := by
      unfold dist_needed
      rw [hm2, max_eq_left hf2]
    set D := max (dist_needed T hw hh a1) (dist_needed T hw hh a2) with hD
    have hDnn : 0 ≤ D := le_trans (div_nonneg hh0 hT0.le)
      (le_trans (hd1 ▸ le_max_left _ _) (le_max_left _ _))
    have hdist : fit_shared_persp T hw hh a1 a2 pad = D * pad := by
      unfold fit_shared_persp
      rw [← hD]
    have key : ∀ a, dist_needed T hw hh a = max (hh / T) (hw / (T * a)) →
        0 < a → dist_needed T hw hh a ≤ D →
        inFrustum corners (fit_shared_persp T hw hh a1 a2 pad) T a := by
      intro a hda hap hle p hp
      have hyb : hh / T ≤ D := le_trans (hda ▸ le_max_left _ _) hle
      have hxb : hw / (T * a) ≤ D := le_trans (hda ▸ le_max_right _ _) hle
      have hz : p.2.2 - midExtent (zsOf corners) ≤ (pad - 1) * D :=
        le_trans (le_abs_self _)
          (le_trans (abs_sub_mid_le_halfExtent _ (List.mem_map_of_mem _ hp)) hdepth)
      have hdg : D ≤ fit_shared_persp T hw hh a1 a2 pad
          - (p.2.2 - midExtent (zsOf corners)) := by
        rw [hdist]
        nlinarith
      have hx1 : |p.1 - midExtent (xsOf corners)| ≤ hw :=
        abs_sub_mid_le_halfExtent _ (List.mem_map_of_mem _ hp)
      have hy1 : |p.2.1 - midExtent (ysOf corners)| ≤ hh :=
        abs_sub_mid_le_halfExtent _ (List.mem_map_of_mem _ hp)
      have hTa : 0 < T * a := mul_pos hT0 hap
      refine ⟨le_trans hDnn hdg, ?_, ?_⟩
      · calc |p.1 - midExtent (xsOf corners)| ≤ hw := hx1
          _ = (hw / (T * a)) * (T * a) := by field_simp
          _ ≤ D * (T * a) := mul_le_mul_of_nonneg_right hxb hTa.le
          _ ≤ (fit_shared_persp T hw hh a1 a2 pad
                - (p.2.2 - midExtent (zsOf corners))) * (T * a) :=
              mul_le_mul_of_nonneg_right hdg hTa.le
      · calc |p.2.1 - midExtent (ysOf corners)| ≤ hh := hy1
          _ = (hh / T) * T := by field_simp
          _ ≤ D * T := mul_le_mul_of_nonneg_right hyb hT0.le
          _ ≤ (fit_shared_persp T hw hh a1 a2 pad
                - (p.2.2 - midExtent (zsOf corners))) * T :=
              mul_le_mul_of_nonneg_right hdg hT0.le
    exact ⟨key a1 hd1 ha1p (le_max_left _ _), key a2 hd2 ha2p (le_max_right _ _)⟩

/-- A deep box in camera coordinates: x/y half-extents 1/2 and 1, axial
half-extent 1 (the two listed corners are an antipodal pair). -/
noncomputable def boxDeep : List (ℝ × ℝ × ℝ) := [(1/2, 1, 1), (-1/2, -1, -1)]

/-- A shallow variant of the same footprint, axial half-extent 1/50. -/
noncomputable def boxShallow : List (ℝ × ℝ × ℝ) :=
  [(1/2, 1, 1/50), (-1/2, -1, -1/50)]

lemma boxDeep_hw : halfExtent (xsOf boxDeep) = 1/2 := by
  norm_num [boxDeep, xsOf, halfExtent, maxList, minList, max_def, min_def]

lemma boxDeep_hh : halfExtent (ysOf boxDeep) = 1 := by
  norm_num [boxDeep, ysOf, halfExtent, maxList, minList, max_def, min_def]

lemma boxDeep_midy : midExtent (ysOf boxDeep) = 0 := by
  norm_num [boxDeep, ysOf, midExtent, maxList, minList, max_def, min_def]

lemma boxDeep_midz : midExtent (zsOf boxDeep) = 0 := by
  norm_num [boxDeep, zsOf, midExtent, maxList, minList, max_def, min_def]

lemma dist_needed_one_half (a : ℝ) (ha : 1/2 ≤ a) (haeps : 1/10^6 ≤ a) :
    dist_needed 1 (1/2) 1 a = 1 := by
  unfold dist_needed
  have hm : max a (1/10^6) = a := max_eq_left haeps
  rw [hm]
  have hden : (1/2 : ℝ) ≤ max (1 * a) tanFloor :=
    le_trans (by linarith) (le_max_left _ _)
  have hpos : (0:ℝ) < max (1 * a) tanFloor :=
    lt_of_lt_of_le (by norm_num) hden
  rw [max_eq_left ((div_le_one hpos).mpr hden |>.trans (by norm_num))]
  norm_num

lemma boxDeep_dist :
    fit_shared_persp 1 (halfExtent (xsOf boxDeep)) (halfExtent (ysOf boxDeep))
      (16/9) (4/3) (11/10) = 11/10 := by
  rw [boxDeep_hw, boxDeep_hh]
  unfold fit_shared_persp
  rw [dist_needed_one_half (16/9) (by norm_num) (by norm_num),
    dist_needed_one_half (4/3) (by norm_num) (by norm_num)]
  norm_num

/-- C7 — counterexample.  The deep box fitted by the perspective branch for
viewports 16:9 and 4:3 with 10% padding and a 90° vertical field of view
(`T = 1`, the angle floors far from binding): the fitted distance is `1.1`,
so the near corner sits at depth `0.1` where the visible half-height is
`0.1·T = 0.1`, while its y-offset is `1` — the bounding box does not project
within either viewport's visible extents, refuting the claim's unconditional
perspective guarantee. -/
theorem fit_shared_perspective_counterexample :
    ((1/2 : ℝ), (1:ℝ), (1:ℝ)) ∈ boxDeep ∧
    tanFloor ≤ 1 * (16/9 : ℝ) ∧ tanFloor ≤ 1 * (4/3 : ℝ) ∧
    ¬ inFrustum boxDeep
        (fit_shared_persp 1 (halfExtent (xsOf boxDeep))
          (halfExtent (ysOf boxDeep)) (16/9) (4/3) (11/10)) 1 (16/9) ∧
    ¬ inFrustum boxDeep
        (fit_shared_persp 1 (halfExtent (xsOf boxDeep))
          (halfExtent (ysOf boxDeep)) (16/9) (4/3) (11/10)) 1 (4/3) := by
  have hmem : ((1/2 : ℝ), (1:ℝ), (1:ℝ)) ∈ boxDeep := by
    simp [boxDeep]
  refine ⟨hmem,
    le_trans tanFloor_lt_one.le (by norm_num),
    le_trans tanFloor_lt_one.le (by norm_num), ?_, ?_⟩
  · intro h
    obtain ⟨-, -, hy⟩ := h ((1/2 : ℝ), (1:ℝ), (1:ℝ)) hmem
    rw [boxDeep_dist, boxDeep_midy, boxDeep_midz] at hy
    norm_num at hy
  · intro h
    obtain ⟨-, -, hy⟩ := h ((1/2 : ℝ), (1:ℝ), (1:ℝ)) hmem
    rw [boxDeep_dist, boxDeep_midy, boxDeep_midz] at hy
    norm_num at hy

lemma boxShallow_hh : halfExtent (ysOf boxShallow) = 1 := by
  norm_num [boxShallow, ysOf, halfExtent, maxList, minList, max_def, min_def]

lemma boxShallow_hz : halfExtent (zsOf boxShallow) = 1/50 := by
  norm_num [boxShallow, zsOf, halfExtent, maxList, minList, max_def, min_def]

/-- Witness for `fit_shared_camera_once_covers`: the shallow box fitted for a
16:9 and a 4:3 viewport with 10% padding and a 90° vertical fov fits both
viewports in parallel mode, and in perspective every corner lies in both view
frusta at its own depth. -/
theorem fit_shared_camera_once_covers_witness :
    (fitsViewport boxShallow
      (fit_shared_parallel (halfExtent (xsOf boxShallow))
        (halfExtent (ysOf boxShallow)) (16/9) (4/3) (11/10)) (16/9) ∧
     fitsViewport boxShallow
      (fit_shared_parallel (halfExtent (xsOf boxShallow))
        (halfExtent (ysOf boxShallow)) (16/9) (4/3) (11/10)) (4/3)) ∧
    (inFrustum boxShallow
      (fit_shared_persp 1 (halfExtent (xsOf boxShallow))
        (halfExtent (ysOf boxShallow)) (16/9) (4/3) (11/10)) 1 (16/9) ∧
     inFrustum boxShallow
      (fit_shared_persp 1 (halfExtent (xsOf boxShallow))
        (halfExtent (ysOf boxShallow)) (16/9) (4/3) (11/10)) 1 (4/3)) := by
  have h := fit_shared_camera_once_covers boxShallow (16/9) (4/3) (11/10) 1
    tanFloor_lt_one.le (by norm_num) (by norm_num) (by norm_num)
  refine ⟨h.1, h.2 (le_trans tanFloor_lt_one.le (by norm_num))
    (le_trans tanFloor_lt_one.le (by norm_num)) ?_⟩
  have hD1 : (1:ℝ) ≤ dist_needed 1 (halfExtent (xsOf boxShallow))
      (halfExtent (ysOf boxShallow)) (16/9) := by
    rw [boxShallow_hh]
    unfold dist_needed
    exact le_trans (by norm_num) (le_max_left _ _)
  have hDmax : (1:ℝ) ≤ max
      (dist_needed 1 (halfExtent (xsOf boxShallow))
        (halfExtent (ysOf boxShallow)) (16/9))
      (dist_needed 1 (halfExtent (xsOf boxShallow))
        (halfExtent (ysOf boxShallow)) (4/3)) :=
    le_trans hD1 (le_max_left _ _)
  rw [boxShallow_hz]
  nlinarith

/-! ## Cursor-anchored zoom — `camera.py:zoom_at_cursor_for` (552-671)

The VTK renderer enters the model through the rays it reports for the cursor
pixel: `(o0, d0)` before the zoom and `(o1, d1)` after the scale step
(`ray_through_xy`, camera.py:582-602); a ray reported after a pure camera
translation is the translated ray (pinhole equivariance), which is how the
final unprojection is phrased.  Directions and view normals are kept
unnormalised: the code's normalisations (`d /= n`, `n0 /= n0n`) rescale by
positive factors that cancel in every plane-intersection parameter, and the
`1e-12` guards become exact zero tests.  The zoom factor `1.2**(delta/120)`
is always positive; the model quantifies over an arbitrary positive rational
factor. -/

/-- A world vector/point. -/
abbrev V3 := ℚ × ℚ × ℚ

def add3 (a b : V3) : V3 := (a.1 + b.1, a.2.1 + b.2.1, a.2.2 + b.2.2)

def sub3 (a b : V3) : V3 := (a.1 - b.1, a.2.1 - b.2.1, a.2.2 - b.2.2)

def smul3 (t : ℚ) (a : V3) : V3 := (t * a.1, t * a.2.1, t * a.2.2)

def dot3 (a b : V3) : ℚ := a.1 * b.1 + a.2.1 * b.2.1 + a.2.2 * b.2.2

/-- Squared distance of two world points. -/
def dist3sq (a b : V3) : ℚ := dot3 (sub3 a b) (sub3 a b)

/-- The vtkCamera state the zoom touches. -/
structure Camera where
  pos : V3
  fp : V3
  viewUp : V3
  parallel : Bool
  parallelScale : ℚ

/-- The (unnormalised) view-plane normal `fp - pos` (camera.py:607). -/
def viewNormal (cam : Camera) : V3 := sub3 cam.fp cam.pos

/-- Ray-plane intersection `o + ((p-o)·n / (d·n)) • d`: where the ray through
`o` with direction `d` meets the plane through `p` with normal `n` — the
parameter computed at camera.py:614-616 and 639-643. -/
def planeMeet (o d p n : V3) : V3 :=
  add3 o (smul3 (dot3 (sub3 p o) n / dot3 d n) d)

/-- camera.py:614-616 — the anchor: the cursor ray's hit on the current focal
plane, with the focal point as fallback for a ray parallel to it. -/
def anchorOf (cam : Camera) (o0 d0 : V3) : V3 :=
  if dot3 d0 (viewNormal cam) = 0 then cam.fp
  else planeMeet o0 d0 cam.fp (viewNormal cam)

/-- camera.py:622-632 — the scale step: divide the parallel scale by
`max(1e-6, factor)` and shift focal point and position by
`(anchor-fp)·(1-1/factor)` (parallel), or contract position and focal point
about the anchor by `1/factor` (perspective). -/
def zoomScale (cam : Camera) (anchor : V3) (factor : ℚ) : Camera :=
  if cam.parallel then
    { cam with
      parallelScale := cam.parallelScale / max (1/10^6) factor
      fp := add3 cam.fp (smul3 (1 - 1/factor) (sub3 anchor cam.fp))
      pos := add3 cam.pos (smul3 (1 - 1/factor) (sub3 anchor cam.fp)) }
  else
    { cam with
      pos := add3 anchor (smul3 (1/factor) (sub3 cam.pos anchor))
      fp := add3 anchor (smul3 (1/factor) (sub3 cam.fp anchor)) }

/-- camera.py:639-645 — the corrective pan: `anchor - q`, where `q` is the
post-scale cursor ray's hit on the plane through the anchor normal to the new
view axis. -/
def panVec (cam1 : Camera) (anchor o1 d1 : V3) : V3 :=
  sub3 anchor (planeMeet o1 d1 anchor (viewNormal cam1))

/-- camera.py:552-652 — the whole zoom: guard a degenerate view axis and a
non-positive factor, compute the anchor, scale, then pan (skipping the pan
when the new axis degenerates or the new ray is parallel to the view plane). -/
def zoom_at_cursor_for (cam : Camera) (o0 d0 o1 d1 : V3) (factor : ℚ) : Camera :=
  if viewNormal cam = (0,0,0) then cam
  else if factor ≤ 0 then cam
  else
    let anchor := anchorOf cam o0 d0
    let cam1 := zoomScale cam anchor factor
    if viewNormal cam1 = (0,0,0) then cam1
    else if dot3 d1 (viewNormal cam1) = 0 then cam1
    else
      let pan := panVec cam1 anchor o1 d1
      { cam1 with pos := add3 cam1.pos pan, fp := add3 cam1.fp pan }

/-- Unprojecting a screen pixel, given the renderer ray `(o, d)` it casts:
the hit on the camera's focal plane. -/
def unprojectFocal (cam : Camera) (o d : V3) : V3 :=
  planeMeet o d cam.fp (viewNormal cam)

lemma planeMeet_on_plane (o d p n : V3) (h : dot3 d n ≠ 0) :
    dot3 (sub3 (planeMeet o d p n) p) n = 0 := by
  obtain ⟨oa, ob, oc⟩ := o
  obtain ⟨da, db, dc⟩ := d
  obtain ⟨pa, pb, pc⟩ := p
  obtain ⟨na, nb, nc⟩ := n
  simp only [planeMeet, dot3, sub3, add3, smul3] at h ⊢
  field_simp
  ring

lemma planeMeet_translate (o d p n v : V3) :
    planeMeet (add3 o v) d (add3 p v) n = add3 (planeMeet o d p n) v := by
  obtain ⟨oa, ob, oc⟩ := o
  obtain ⟨da, db, dc⟩ := d
  obtain ⟨pa, pb, pc⟩ := p
  obtain ⟨na, nb, nc⟩ := n
  obtain ⟨va, vb, vc⟩ := v
  simp only [planeMeet, dot3, sub3, add3, smul3, Prod.mk.injEq]
  refine ⟨?_, ?_, ?_⟩ <;> ring_nf

lemma planeMeet_congr_plane (o d p p' n : V3) (h : dot3 (sub3 p p') n = 0) :
    planeMeet o d p n = planeMeet o d p' n := by
  obtain ⟨oa, ob, oc⟩ := o
  obtain ⟨da, db, dc⟩ := d
  obtain ⟨pa, pb, pc⟩ := p
  obtain ⟨qa, qb, qc⟩ := p'
  obtain ⟨na, nb, nc⟩ := n
  simp only [dot3, sub3] at h
  simp only [planeMeet, dot3, sub3, add3, smul3, Prod.mk.injEq]
  have hd : (pa - oa) * na + (pb - ob) * nb + (pc - oc) * nc
      = (qa - oa) * na + (qb - ob) * nb + (qc - oc) * nc := by linarith
  rw [hd]
  exact ⟨rfl, rfl, rfl⟩

lemma add3_sub3_cancel (q a : V3) : add3 q (sub3 a q) = a := by
  obtain ⟨qa, qb, qc⟩ := q
  obtain ⟨aa, ab, ac⟩ := a
  simp only [add3, sub3, Prod.mk.injEq]
  refine ⟨by ring, by ring, by ring⟩

lemma dot3_zero_right (a : V3) : dot3 a (0,0,0) = 0 := by
  obtain ⟨aa, ab, ac⟩ := a
  simp [dot3]

lemma sub3_add3_add3 (a b v : V3) : sub3 (add3 a v) (add3 b v) = sub3 a b := by
  obtain ⟨aa, ab, ac⟩ := a
  obtain ⟨ba, bb, bc⟩ := b
  obtain ⟨va, vb, vc⟩ := v
  simp only [add3, sub3, Prod.mk.injEq]
  refine ⟨by ring, by ring, by ring⟩

lemma dist3sq_self (a : V3) : dist3sq a a = 0 := by
  obtain ⟨aa, ab, ac⟩ := a
  simp [dist3sq, dot3, sub3]

/-- The scale step keeps the anchor on the (moved) focal plane: with the
anchor on the old focal plane, the new focal point still sees the anchor
orthogonally to the new view axis, in both projection modes. -/
lemma zoomScale_keeps_anchor_plane (cam : Camera) (anchor : V3) (f : ℚ)
    (hf : f ≠ 0)
    (ha : dot3 (sub3 anchor cam.fp) (viewNormal cam) = 0) :
    dot3 (sub3 (zoomScale cam anchor f).fp anchor)
      (viewNormal (zoomScale cam anchor f)) = 0 := by
  obtain ⟨⟨pa, pb, pc⟩, ⟨fa, fb, fc⟩, vu, par, ps⟩ := cam
  obtain ⟨aa, ab, ac⟩ := anchor
  cases par with
  | true =>
    simp only [zoomScale, viewNormal, add3, sub3, smul3, dot3, if_true] at ha ⊢
    field_simp
    linear_combination (-f) * ha
  | false =>
    simp only [zoomScale, viewNormal, add3, sub3, smul3, dot3, Bool.false_eq_true,
      if_false] at ha ⊢
    field_simp
    linear_combination (-1 : ℚ) * ha

lemma viewNormal_translate (cam : Camera) (v : V3) :
    viewNormal { cam with pos := add3 cam.pos v, fp := add3 cam.fp v }
      = viewNormal cam :=
  sub3_add3_add3 _ _ _

lemma unprojectFocal_translate (cam : Camera) (v o d : V3) :
    unprojectFocal { cam with pos := add3 cam.pos v, fp := add3 cam.fp v }
        (add3 o v) d
      = add3 (unprojectFocal cam o d) v := by
  unfold unprojectFocal
  rw [viewNormal_translate]
  exact planeMeet_translate o d cam.fp (viewNormal cam) v

/-- C6 — cursor-anchored zoom: for every non-degenerate camera and positive
zoom factor (the code's `1.2**(delta/120)` is always positive), with the
renderer rays for the cursor pixel before the zoom `(o0,d0)` and after the
scale step `(o1,d1)` crossing the respective focal planes, unprojecting the
cursor pixel after `zoom_at_cursor_for` (the post-pan ray being the translated
ray `(o1+pan, d1)`) returns exactly the world point unprojected before the
call — in particular within every nonnegative tolerance, e.g. `1e-3` times
the bounding-sphere radius. -/
theorem zoom_at_cursor_anchoring (cam : Camera) (o0 d0 o1 d1 : V3) (factor : ℚ)
    (hn0 : viewNormal cam ≠ ((0:ℚ),(0:ℚ),(0:ℚ)))
    (hf : 0 < factor)
    (hd0 : dot3 d0 (viewNormal cam) ≠ 0)
    (hd1 : dot3 d1 (viewNormal (zoomScale cam (anchorOf cam o0 d0) factor)) ≠ 0) :
    unprojectFocal (zoom_at_cursor_for cam o0 d0 o1 d1 factor)
        (add3 o1 (panVec (zoomScale cam (anchorOf cam o0 d0) factor)
          (anchorOf cam o0 d0) o1 d1)) d1
      = unprojectFocal cam o0 d0 ∧
    ∀ tol : ℚ, 0 ≤ tol →
      dist3sq
        (unprojectFocal (zoom_at_cursor_for cam o0 d0 o1 d1 factor)
          (add3 o1 (panVec (zoomScale cam (anchorOf cam o0 d0) factor)
            (anchorOf cam o0 d0) o1 d1)) d1)
        (unprojectFocal cam o0 d0) ≤ tol := by
  set anchor := anchorOf cam o0 d0 with hanch
  set cam1 := zoomScale cam anchor factor with hcam1
  set pan := panVec cam1 anchor o1 d1 with hpan
  have hn1 : viewNormal cam1 ≠ ((0:ℚ),(0:ℚ),(0:ℚ)) := by
    intro h
    exact hd1 (by rw [h]; exact dot3_zero_right d1)
  have hzoom : zoom_at_cursor_for cam o0 d0 o1 d1 factor
      = { cam1 with pos := add3 cam1.pos pan, fp := add3 cam1.fp pan } := by
    unfold zoom_at_cursor_for
    rw [if_neg hn0, if_neg (not_le.mpr hf)]
    simp only [← hanch, ← hcam1]
    rw [if_neg hn1, if_neg hd1]
  have hadef : anchor = planeMeet o0 d0 cam.fp (viewNormal cam) := by
    rw [hanch]
    unfold anchorOf
    rw [if_neg hd0]
  have honplane : dot3 (sub3 anchor cam.fp) (viewNormal cam) = 0 := by
    rw [hadef]
    exact planeMeet_on_plane o0 d0 cam.fp (viewNormal cam) hd0
  have hfp1 : dot3 (sub3 cam1.fp anchor) (viewNormal cam1) = 0 :=
    zoomScale_keeps_anchor_plane cam anchor factor (ne_of_gt hf) honplane
  have hpan2 : pan = sub3 anchor (planeMeet o1 d1 anchor (viewNormal cam1)) := rfl
  have hmain : unprojectFocal (zoom_at_cursor_for cam o0 d0 o1 d1 factor)
      (add3 o1 pan) d1 = unprojectFocal cam o0 d0 := by
    rw [hzoom, unprojectFocal_translate cam1 pan o1 d1]
    have hcongr : unprojectFocal cam1 o1 d1
        = planeMeet o1 d1 anchor (viewNormal cam1) :=
      planeMeet_congr_plane o1 d1 cam1.fp anchor (viewNormal cam1) hfp1
    rw [hcongr, hpan2, add3_sub3_cancel, hadef]
    rfl
  refine ⟨hmain, fun tol htol => ?_⟩
  rw [hmain, dist3sq_self]
  exact htol

/-- A concrete perspective camera 10 units above the origin, with the cursor
ray leaving the eye diagonally. -/
def camZ : Camera := ⟨(0,0,10), (0,0,0), (0,1,0), false, 1⟩

/-- Witness for `zoom_at_cursor_anchoring`: zooming in by factor 6/5 on the
concrete camera keeps the cursor's world point fixed. -/
theorem zoom_at_cursor_anchoring_witness :
    unprojectFocal (zoom_at_cursor_for camZ (0,0,10) (1,0,-1) (2,0,8) (1,0,-1) (6/5))
        (add3 (2,0,8) (panVec (zoomScale camZ (anchorOf camZ (0,0,10) (1,0,-1)) (6/5))
          (anchorOf camZ (0,0,10) (1,0,-1)) (2,0,8) (1,0,-1))) (1,0,-1)
      = unprojectFocal camZ (0,0,10) (1,0,-1) ∧
    dist3sq
      (unprojectFocal (zoom_at_cursor_for camZ (0,0,10) (1,0,-1) (2,0,8) (1,0,-1) (6/5))
        (add3 (2,0,8) (panVec (zoomScale camZ (anchorOf camZ (0,0,10) (1,0,-1)) (6/5))
          (anchorOf camZ (0,0,10) (1,0,-1)) (2,0,8) (1,0,-1))) (1,0,-1))
      (unprojectFocal camZ (0,0,10) (1,0,-1)) ≤ 1 :=
  ⟨(zoom_at_cursor_anchoring camZ (0,0,10) (1,0,-1) (2,0,8) (1,0,-1) (6/5)
      (by norm_num [camZ, viewNormal, sub3, Prod.mk.injEq])
      (by norm_num)
      (by norm_num [camZ, viewNormal, sub3, dot3])
      (by norm_num [camZ, viewNormal, sub3, dot3, zoomScale, anchorOf,
        planeMeet, add3, smul3])).1,
   (zoom_at_cursor_anchoring camZ (0,0,10) (1,0,-1) (2,0,8) (1,0,-1) (6/5)
      (by norm_num [camZ, viewNormal, sub3, Prod.mk.injEq])
      (by norm_num)
      (by norm_num [camZ, viewNormal, sub3, dot3])
      (by norm_num [camZ, viewNormal, sub3, dot3, zoomScale, anchorOf,
        planeMeet, add3, smul3])).2 1 (by norm_num)⟩

end PCSA
